import Mathlib

set_option linter.all false

/-! Shallow embedding of `crates/assistant2/src/assistant2.rs`: the chat-session
data model (messages, contexts, excerpts), the submit/truncate/settle pipeline,
the codebase-context retrieval fan-in, and the completion-message rendering.
UI rendering, focus handles and the async executor are abstracted: focus is an
oracle `Nat → Bool`, the completion stream is a finite outcome value, and
the background tasks are sequentialized at their serialized apply points. -/

/-- Rendered rich text; the renderer is a pure function of the underlying text
(`RichText::new(body, &[], &registry)`), and `completion_messages` reads back
`body.text`. -/
structure RichText where
  text : String
deriving DecidableEq

def RichText.new (body : String) : RichText := ⟨body⟩

def RichText.default : RichText := ⟨""⟩

deriving instance DecidableEq for Except

/-- `MessageId::post_inc`: returns the current id and bumps the counter. -/
def MessageId.post_inc (n : Nat) : Nat × Nat := (n, n + 1)

/-- `ContextId::post_inc`: returns the current id and bumps the counter. -/
def ContextId.post_inc (n : Nat) : Nat × Nat := (n, n + 1)

/-- `SubmitMode` from the source. -/
inductive SubmitMode where
  | Simple
  | CurrentFile
  | Codebase
deriving DecidableEq

/-- `CodebaseExcerpt`; the `f32` relevance score is carried opaquely as an
integer code (the program never computes with it, only copies it). -/
structure CodebaseExcerpt where
  path : String
  text : String
  score : Int
deriving DecidableEq

structure CodebaseContext where
  id : Nat
  excerpts : List CodebaseExcerpt
  pending : Bool
deriving DecidableEq

inductive AssistantContext where
  | codebase (context : CodebaseContext)
deriving DecidableEq

/-- `AssistantContext::codebase(id)`: a fresh pending codebase context. -/
def AssistantContext.newCodebase (id : Nat) : AssistantContext :=
  .codebase { id := id, excerpts := [], pending := true }

/-- `CodebaseContext::populate`. -/
def CodebaseContext.populate (this : CodebaseContext) (excerpts : List CodebaseExcerpt) :
    CodebaseContext :=
  { this with excerpts := excerpts, pending := false }

/-- `UserMessage`; `body` is the editor view's current text. -/
structure UserMessage where
  id : Nat
  body : String
  contexts : List AssistantContext
deriving DecidableEq

structure AssistantMessage where
  id : Nat
  body : RichText
  error : Option String
deriving DecidableEq

inductive ChatMessage where
  | user (message : UserMessage)
  | assistant (message : AssistantMessage)
deriving DecidableEq

def ChatMessage.msgId : ChatMessage → Nat
  | .user u => u.id
  | .assistant a => a.id

def ChatMessage.isUser : ChatMessage → Bool
  | .user _ => true
  | .assistant _ => false

/-- `AssistantChat` state; the view handles, list state and the pending task
handle carry no transcript information and are omitted. -/
structure AssistantChat where
  messages : List ChatMessage
  next_message_id : Nat
  next_context_id : Nat
deriving DecidableEq

/-- `focused_message_id`: first user message whose editor contains focus; the
focus handle is abstracted as an oracle on message ids. -/
def focused_message_id : List ChatMessage → (Nat → Bool) → Option Nat
  | [], _ => none
  | .user u :: rest, isFocused =>
      if isFocused u.id then some u.id else focused_message_id rest isFocused
  | .assistant _ :: rest, isFocused => focused_message_id rest isFocused

/-- `messages.iter().position(|m| m.id == last_message_id)`. -/
def idxOfMessage : List ChatMessage → Nat → Option Nat
  | [], _ => none
  | m :: rest, mid =>
      if m.msgId = mid then some 0 else (idxOfMessage rest mid).map (· + 1)

/-- `AssistantChat::truncate_messages`. -/
def AssistantChat.truncate_messages (this : AssistantChat) (last_message_id : Nat) :
    AssistantChat :=
  match idxOfMessage this.messages last_message_id with
  | some index => { this with messages := this.messages.take (index + 1) }
  | none => this

/-- `AssistantChat::push_new_user_message` (the focus flag only affects the
editor view, not the transcript state). -/
def AssistantChat.push_new_user_message (this : AssistantChat) : AssistantChat :=
  let alloc := MessageId.post_inc this.next_message_id
  { this with
    messages := this.messages ++ [.user { id := alloc.1, body := "", contexts := [] }],
    next_message_id := alloc.2 }

/-- `AssistantChat::push_new_assistant_message`. -/
def AssistantChat.push_new_assistant_message (this : AssistantChat) : AssistantChat :=
  let alloc := MessageId.post_inc this.next_message_id
  { this with
    messages := this.messages ++ [.assistant { id := alloc.1, body := RichText.default, error := none }],
    next_message_id := alloc.2 }

/-- Field initialization in `AssistantChat::new` before the first
`push_new_user_message`. -/
def AssistantChat.mkEmpty : AssistantChat :=
  { messages := [], next_message_id := 0, next_context_id := 0 }

/-- `AssistantChat::new`: fresh counters, then one initial user message. -/
def AssistantChat.new : AssistantChat :=
  AssistantChat.mkEmpty.push_new_user_message

/-- Role tag of a completion message; the struct shape is taken from its use
sites in `completion_messages`. -/
inductive CompletionRole where
  | user
  | assistant
deriving DecidableEq

structure CompletionMessage where
  role : CompletionRole
  body : String
deriving DecidableEq

/-- `AssistantChat::completion_messages`. -/
def AssistantChat.completion_messages (this : AssistantChat) : List CompletionMessage :=
  this.messages.map fun message =>
    match message with
    | .user u => { role := .user, body := u.body }
    | .assistant a => { role := .assistant, body := a.body.text }

/-- One hit returned by `ProjectIndex::search`: the worktree path resolution
(`worktree.read_with(...).abs_path().join(path)`) may already have failed, and
the hit carries a relative path, a range and a score. Byte offsets are modeled
as character offsets. -/
structure SearchResult where
  abs_path : Except String String
  path : String
  range_start : Nat
  range_end : Nat
  score : Int
deriving DecidableEq

/-- Per-hit resolution future body: resolve the absolute path, load the file
(`fs.load`, abstracted as `load`), slice the hit's range. -/
def resolve_excerpt (load : String → Except String String) (result : SearchResult) :
    Except String CodebaseExcerpt :=
  match result.abs_path with
  | .error e => .error e
  | .ok abs =>
    match load abs with
    | .error e => .error e
    | .ok text =>
      .ok { path := result.path,
            text := (text.drop result.range_start).take (result.range_end - result.range_start),
            score := result.score }

/-- `join_all(excerpts)` followed by `.filter_map(|r| r.log_err())`: the fan-in
collects results in search order (not completion order) and drops individual
failures. -/
def gather_excerpts (load : String → Except String String) (results : List SearchResult) :
    List CodebaseExcerpt :=
  (results.map (resolve_excerpt load)).filterMap Except.toOption

/-- `user_message(id)` lookup (first user message with the id); the source
`.expect`s on absence. -/
def find_user (mid : Nat) : List ChatMessage → Option UserMessage
  | [] => none
  | .user u :: rest => if u.id = mid then some u else find_user mid rest
  | .assistant _ :: rest => find_user mid rest

/-- Mutation through `user_message(id)`: rewrite the first user message with
the given id in place; absence (a panic in the source) leaves the list
unchanged and is proved unreachable in the settled flows we analyze. -/
def update_first_user (mid : Nat) (f : UserMessage → UserMessage) :
    List ChatMessage → List ChatMessage
  | [] => []
  | .user u :: rest =>
      if u.id = mid then .user (f u) :: rest
      else .user u :: update_first_user mid f rest
  | .assistant a :: rest => .assistant a :: update_first_user mid f rest

/-- `codebase_context(message_id, context_id)` + `populate`: rewrite the first
codebase context with the given id inside a context list. -/
def populate_first_codebase (cid : Nat) (excerpts : List CodebaseExcerpt) :
    List AssistantContext → List AssistantContext
  | [] => []
  | .codebase c :: rest =>
      if c.id = cid then .codebase (c.populate excerpts) :: rest
      else .codebase c :: populate_first_codebase cid excerpts rest

/-- `AssistantChat::populate_context_on_submit`, with its asynchronous tail
(search await, per-hit loads, `populate`) sequentialized at its serialized
apply point, which the pipeline awaits before opening the stream. -/
def AssistantChat.populate_context_on_submit (this : AssistantChat) (submitted_id : Nat)
    (mode : SubmitMode) (search : String → Nat → List SearchResult)
    (load : String → Except String String) : AssistantChat :=
  match mode with
  | .Simple => this
  | .CurrentFile => this
  | .Codebase =>
    let alloc := ContextId.post_inc this.next_context_id
    let context_id := alloc.1
    let messages := update_first_user submitted_id
      (fun u => { u with contexts := u.contexts ++ [AssistantContext.newCodebase context_id] })
      this.messages
    let query := ((find_user submitted_id messages).map UserMessage.body).getD ""
    let results := search query 4
    let excerpts := gather_excerpts load results
    let messages := update_first_user submitted_id
      (fun u => { u with contexts := populate_first_codebase context_id excerpts u.contexts })
      messages
    { this with messages := messages, next_context_id := alloc.2 }

/-- The streamed-body update inside the chunk loop: re-render the last
message's body when it is an assistant message (the source `unreachable!`s
otherwise; modeled as no change and proved unreachable in settled flows). -/
def set_last_assistant_body (messages : List ChatMessage) (body : String) : List ChatMessage :=
  match messages.getLast? with
  | some (.assistant a) => messages.dropLast ++ [.assistant { a with body := RichText.new body }]
  | _ => messages

/-- The settle-phase error write: `message_error.replace(error.to_string())`
on the last message when it is an assistant message. -/
def set_last_assistant_error (messages : List ChatMessage) (message : String) :
    List ChatMessage :=
  match messages.getLast? with
  | some (.assistant a) => messages.dropLast ++ [.assistant { a with error := some message }]
  | _ => messages

/-- The `while let Some(chunk) = stream.next()` loop: accumulate each chunk
into `body` and republish the pending assistant body from the accumulator. -/
def consume_chunks (st : AssistantChat) (body : String) :
    List String → AssistantChat × String
  | [] => (st, body)
  | chunk :: rest =>
      let body := body ++ chunk
      consume_chunks { st with messages := set_last_assistant_body st.messages body } body rest

/-- Concatenation of stream chunks. -/
def joinChunks : List String → String
  | [] => ""
  | c :: cs => c ++ joinChunks cs

/-- Closed form of the pending assistant message after the chunk loop ran over
`chunks` with accumulator `body`. -/
def chunkedMsg (a : AssistantMessage) (body : String) : List String → AssistantMessage
  | [] => a
  | chunks => { a with body := RichText.new (body ++ joinChunks chunks) }

/-- Outcome of one completion run: either opening the stream (or awaiting the
populate task) failed, or the stream yielded `chunks` followed by an optional
chunk-read failure; the loop never consumes past a failed read. -/
inductive StreamOutcome where
  | openError (message : String)
  | run (chunks : List String) (failure : Option String)

/-- The settle phase of `submit`'s spawned task: consume the stream, record a
failure on the pending assistant message, then append a fresh user message. -/
def AssistantChat.run_completion (st : AssistantChat) (stream : StreamOutcome) : AssistantChat :=
  match stream with
  | .openError message =>
      AssistantChat.push_new_user_message
        { st with messages := set_last_assistant_error st.messages message }
  | .run chunks failure =>
      let st := (consume_chunks st "" chunks).1
      let st := match failure with
        | some message => { st with messages := set_last_assistant_error st.messages message }
        | none => st
      AssistantChat.push_new_user_message st

/-- A full settled `AssistantChat::submit` cycle: focus check, truncate to the
focused message, push the pending assistant message, populate context, then
run the completion to settlement. -/
def AssistantChat.submit (st : AssistantChat) (isFocused : Nat → Bool) (mode : SubmitMode)
    (search : String → Nat → List SearchResult) (load : String → Except String String)
    (stream : StreamOutcome) : AssistantChat :=
  match focused_message_id st.messages isFocused with
  | none => st
  | some focused_id =>
      let st := st.truncate_messages focused_id
      let st := st.push_new_assistant_message
      let st := st.populate_context_on_submit focused_id mode search load
      st.run_completion stream

/-- States reachable from a fresh session by settled submit cycles. -/
inductive Reachable : AssistantChat → Prop
  | init : Reachable AssistantChat.new
  | step (st : AssistantChat) (isFocused : Nat → Bool) (mode : SubmitMode)
      (search : String → Nat → List SearchResult) (load : String → Except String String)
      (stream : StreamOutcome) :
      Reachable st → Reachable (st.submit isFocused mode search load stream)

/-- Body of the last message when it is the pending assistant message. -/
def lastAssistantBody (st : AssistantChat) : Option String :=
  match st.messages.getLast? with
  | some (.assistant a) => some a.body.text
  | _ => none

def msgTags (messages : List ChatMessage) : List Bool :=
  messages.map ChatMessage.isUser

def msgIds (messages : List ChatMessage) : List Nat :=
  messages.map ChatMessage.msgId

def ctxIdsOf (contexts : List AssistantContext) : List Nat :=
  contexts.map fun c => match c with | .codebase cc => cc.id

def ctxIds (messages : List ChatMessage) : List Nat :=
  (messages.map fun m => match m with
    | .user u => ctxIdsOf u.contexts
    | .assistant _ => []).flatten

/-- Strict user/assistant alternation of a tag list, starting from `b`. -/
def altTags : Bool → List Bool → Bool
  | _, [] => true
  | b, t :: rest => (t == b) && altTags (!b) rest

/-- Expected alternation tag after skipping a block of length `n`. -/
def altShift (b : Bool) (n : Nat) : Bool :=
  if n % 2 = 0 then b else !b

/-- Inductive invariant of reachable sessions: odd length, strict
user/assistant alternation starting with a user message, strictly increasing
message ids all below the message counter, and context ids below the context
counter. -/
def SessionInv (st : AssistantChat) : Prop :=
  st.messages.length % 2 = 1
  ∧ altTags true (msgTags st.messages) = true
  ∧ List.Pairwise (· < ·) (msgIds st.messages)
  ∧ (∀ i ∈ msgIds st.messages, i < st.next_message_id)
  ∧ (∀ i ∈ ctxIds st.messages, i < st.next_context_id)

/-- For C8's frame part: replace every user message's context list and every
assistant message's error with arbitrary values. -/
def scrub_extras (contexts : List AssistantContext) (error : Option String) :
    ChatMessage → ChatMessage
  | .user u => .user { u with contexts := contexts }
  | .assistant a => .assistant { a with error := error }

/-! Helper lemmas about the id-indexed transcript lookups. -/

theorem idxOfMessage_eq_none_of_not_mem (msgs : List ChatMessage) (mid : Nat)
    (h : mid ∉ msgIds msgs) : idxOfMessage msgs mid = none := by
  induction msgs with
  | nil => rfl
  | cons m rest ih =>
    simp only [msgIds, List.map_cons, List.mem_cons, not_or] at h
    simp only [idxOfMessage]
    rw [if_neg (fun he => h.1 he.symm), ih (by simpa [msgIds] using h.2)]
    rfl

theorem idxOfMessage_spec (msgs : List ChatMessage) (mid : Nat) (i : Nat)
    (h : idxOfMessage msgs mid = some i) :
    ∃ hlt : i < msgs.length, (msgs.get ⟨i, hlt⟩).msgId = mid := by
  induction msgs generalizing i with
  | nil => simp [idxOfMessage] at h
  | cons m rest ih =>
    by_cases hm : m.msgId = mid
    · simp only [idxOfMessage, if_pos hm] at h
      cases h
      exact ⟨Nat.succ_pos _, hm⟩
    · simp only [idxOfMessage, if_neg hm, Option.map_eq_some'] at h
      obtain ⟨j, hj, rfl⟩ := h
      obtain ⟨hlt, hget⟩ := ih j hj
      exact ⟨Nat.succ_lt_succ hlt, hget⟩

theorem idxOfMessage_of_mem (msgs : List ChatMessage) (mid : Nat)
    (h : mid ∈ msgIds msgs) : ∃ i, idxOfMessage msgs mid = some i := by
  induction msgs with
  | nil => simp [msgIds] at h
  | cons m rest ih =>
    by_cases hm : m.msgId = mid
    · exact ⟨0, by simp [idxOfMessage, hm]⟩
    · simp only [msgIds, List.map_cons, List.mem_cons] at h
      rcases h with h | h
      · exact absurd h.symm hm
      · obtain ⟨i, hi⟩ := ih (by simpa [msgIds] using h)
        exact ⟨i + 1, by simp [idxOfMessage, hm, hi]⟩

theorem idxOfMessage_take (msgs : List ChatMessage) (mid : Nat) (i : Nat)
    (h : idxOfMessage msgs mid = some i) :
    idxOfMessage (msgs.take (i + 1)) mid = some i := by
  induction msgs generalizing i with
  | nil => simp [idxOfMessage] at h
  | cons m rest ih =>
    by_cases hm : m.msgId = mid
    · simp only [idxOfMessage, if_pos hm] at h
      cases h
      simp [idxOfMessage, hm]
    · simp only [idxOfMessage, if_neg hm, Option.map_eq_some'] at h
      obtain ⟨j, hj, rfl⟩ := h
      simp [idxOfMessage, hm, List.take_cons, ih j hj]

/-- C5: for every transcript and every turn id present in it,
`truncate_messages` keeps exactly the turns up to and including the (first)
turn with that id, and truncating twice to the same id equals truncating
once. -/
theorem C5_truncate_exact_and_idempotent (st : AssistantChat) (mid : Nat) :
    (mid ∈ msgIds st.messages →
      ∃ i, ∃ hlt : i < st.messages.length,
        idxOfMessage st.messages mid = some i
        ∧ (st.messages.get ⟨i, hlt⟩).msgId = mid
        ∧ (st.truncate_messages mid).messages = st.messages.take (i + 1))
    ∧ (st.truncate_messages mid).truncate_messages mid = st.truncate_messages mid := by
  constructor
  · intro hmem
    obtain ⟨i, hi⟩ := idxOfMessage_of_mem st.messages mid hmem
    obtain ⟨hlt, hget⟩ := idxOfMessage_spec st.messages mid i hi
    refine ⟨i, hlt, hi, hget, ?_⟩
    simp [AssistantChat.truncate_messages, hi]
  · cases h : idxOfMessage st.messages mid with
    | none => simp [AssistantChat.truncate_messages, h]
    | some i =>
      have htake := idxOfMessage_take st.messages mid i h
      simp [AssistantChat.truncate_messages, h, htake, List.take_take]

/-- C5 witness: a concrete three-turn transcript truncated to the middle
turn. -/
theorem C5_truncate_witness :
    ∃ i, ∃ hlt : i < (⟨[ChatMessage.user ⟨0, "", []⟩,
        ChatMessage.assistant ⟨1, ⟨""⟩, none⟩,
        ChatMessage.user ⟨2, "", []⟩], 3, 0⟩ : AssistantChat).messages.length,
      idxOfMessage (⟨[ChatMessage.user ⟨0, "", []⟩,
        ChatMessage.assistant ⟨1, ⟨""⟩, none⟩,
        ChatMessage.user ⟨2, "", []⟩], 3, 0⟩ : AssistantChat).messages 1 = some i
      ∧ ((⟨[ChatMessage.user ⟨0, "", []⟩,
          ChatMessage.assistant ⟨1, ⟨""⟩, none⟩,
          ChatMessage.user ⟨2, "", []⟩], 3, 0⟩ : AssistantChat).messages.get ⟨i, hlt⟩).msgId = 1
      ∧ ((⟨[ChatMessage.user ⟨0, "", []⟩,
          ChatMessage.assistant ⟨1, ⟨""⟩, none⟩,
          ChatMessage.user ⟨2, "", []⟩], 3, 0⟩ : AssistantChat).truncate_messages 1).messages
          = (⟨[ChatMessage.user ⟨0, "", []⟩,
            ChatMessage.assistant ⟨1, ⟨""⟩, none⟩,
            ChatMessage.user ⟨2, "", []⟩], 3, 0⟩ : AssistantChat).messages.take (i + 1) :=
  (C5_truncate_exact_and_idempotent
    ⟨[ChatMessage.user ⟨0, "", []⟩, ChatMessage.assistant ⟨1, ⟨""⟩, none⟩,
      ChatMessage.user ⟨2, "", []⟩], 3, 0⟩ 1).1 (by decide)

/-- C10: truncating to an id that is absent from the transcript leaves the
session entirely unchanged (a silent no-op, not a failure). -/
theorem C10_truncate_absent_id_noop (st : AssistantChat) (mid : Nat)
    (h : mid ∉ msgIds st.messages) : st.truncate_messages mid = st := by
  simp [AssistantChat.truncate_messages, idxOfMessage_eq_none_of_not_mem st.messages mid h]

/-- C10 witness: id 5 is absent from a fresh session's transcript. -/
theorem C10_truncate_absent_witness :
    (5 ∉ msgIds AssistantChat.new.messages)
    ∧ AssistantChat.new.truncate_messages 5 = AssistantChat.new :=
  ⟨by decide, C10_truncate_absent_id_noop AssistantChat.new 5 (by decide)⟩

/-- C9: if no user message holds focus, `submit` leaves the session state
entirely unchanged (the internal-consistency report is a log line outside the
session state). -/
theorem C9_unfocused_submit_noop (st : AssistantChat) (isFocused : Nat → Bool)
    (mode : SubmitMode) (search : String → Nat → List SearchResult)
    (load : String → Except String String) (stream : StreamOutcome)
    (h : focused_message_id st.messages isFocused = none) :
    st.submit isFocused mode search load stream = st := by
  unfold AssistantChat.submit
  rw [h]

/-- C9 witness: a fresh session with an always-unfocused oracle. -/
theorem C9_unfocused_witness :
    focused_message_id AssistantChat.new.messages (fun _ => false) = none
    ∧ AssistantChat.new.submit (fun _ => false) .Simple (fun _ _ => [])
        (fun _ => .error "io") (.run [] none) = AssistantChat.new :=
  ⟨by decide,
    C9_unfocused_submit_noop AssistantChat.new (fun _ => false) .Simple (fun _ _ => [])
      (fun _ => .error "io") (.run [] none) (by decide)⟩

/-- C7: submitting with mode `Simple` or `CurrentFile` resolves the context
attachment step immediately: the whole session state — in particular the
addressed turn's context list and the Nat allocator — is unchanged. -/
theorem C7_simple_modes_no_attachment (st : AssistantChat) (sid : Nat)
    (search : String → Nat → List SearchResult) (load : String → Except String String) :
    st.populate_context_on_submit sid .Simple search load = st
    ∧ st.populate_context_on_submit sid .CurrentFile search load = st :=
  ⟨rfl, rfl⟩

/-- C8: `completion_messages` maps each turn, in transcript order, to one
role-tagged plain-text message (user turns contribute their literal body,
assistant turns their accumulated streamed text), and is invariant under
replacing every context list and error field. -/
theorem C8_completion_messages_shape (st : AssistantChat) :
    st.completion_messages.length = st.messages.length
    ∧ (∀ i : Nat, st.completion_messages[i]? =
        (st.messages[i]?).map fun m => match m with
          | .user u => { role := CompletionRole.user, body := u.body }
          | .assistant a => { role := CompletionRole.assistant, body := a.body.text })
    ∧ (∀ (contexts : List AssistantContext) (error : Option String),
        AssistantChat.completion_messages
          { st with messages := st.messages.map (scrub_extras contexts error) }
          = st.completion_messages) := by
  refine ⟨List.length_map _ _, fun i => ?_, fun contexts error => ?_⟩
  · simp only [AssistantChat.completion_messages, List.getElem?_map]
  · simp only [AssistantChat.completion_messages, List.map_map]
    apply List.map_congr_left
    intro m _
    cases m <;> rfl

/-- The fan-in keeps exactly the successfully resolved hits, in search
order. -/
theorem gather_excerpts_eq_filter (load : String → Except String String)
    (results : List SearchResult) :
    gather_excerpts load results
      = (results.filter fun r => (resolve_excerpt load r).isOk).map
          fun r => ((resolve_excerpt load r).toOption).getD { path := "", text := "", score := 0 } := by
  induction results with
  | nil => rfl
  | cons r rest ih =>
    cases h : resolve_excerpt load r with
    | error e =>
      have hfil : (List.filter (fun r => (resolve_excerpt load r).isOk) (r :: rest))
          = List.filter (fun r => (resolve_excerpt load r).isOk) rest := by
        simp [List.filter_cons, h, Except.isOk, Except.toBool]
      rw [hfil, ← ih]
      simp [gather_excerpts, List.filterMap_cons, h, Except.toOption]
    | ok ex =>
      have hfil : (List.filter (fun r => (resolve_excerpt load r).isOk) (r :: rest))
          = r :: List.filter (fun r => (resolve_excerpt load r).isOk) rest := by
        simp [List.filter_cons, h, Except.isOk, Except.toBool]
      rw [hfil, List.map_cons, ← ih]
      simp [gather_excerpts, List.filterMap_cons, h, Except.toOption]

/-- C4: populating a codebase context stores exactly the excerpts whose
resolution succeeded, in the order the search returned the hits, clears
`pending` and keeps the context id; concretely, four hits with hit #2 failing
to load yield the three excerpts of hits #1, #3, #4 in order. -/
theorem C4_populate_order_and_dropped_failures (ctx : CodebaseContext)
    (load : String → Except String String) (results : List SearchResult) :
    (ctx.populate (gather_excerpts load results)).pending = false
    ∧ (ctx.populate (gather_excerpts load results)).id = ctx.id
    ∧ ((ctx.populate (gather_excerpts load results)).excerpts
        = (results.filter fun r => (resolve_excerpt load r).isOk).map
            fun r => ((resolve_excerpt load r).toOption).getD { path := "", text := "", score := 0 })
    ∧ CodebaseContext.populate ⟨7, [], true⟩
        (gather_excerpts (fun p => if p = "f2" then .error "load failed" else .ok "hello world")
          [⟨.ok "f1", "f1", 0, 3, 0⟩, ⟨.ok "f2", "f2", 0, 3, 0⟩,
            ⟨.ok "f3", "f3", 2, 5, 0⟩, ⟨.ok "f4", "f4", 0, 2, 0⟩])
        = ⟨7, [⟨"f1", "hel", 0⟩, ⟨"f3", "llo", 0⟩, ⟨"f4", "he", 0⟩], false⟩ :=
  ⟨rfl, rfl, gather_excerpts_eq_filter load results, by decide⟩

/-! Streaming: closed form of the chunk loop. -/

theorem set_last_assistant_body_concat (pre : List ChatMessage) (a : AssistantMessage)
    (body : String) :
    set_last_assistant_body (pre ++ [.assistant a]) body
      = pre ++ [.assistant { a with body := RichText.new body }] := by
  simp [set_last_assistant_body, List.getLast?_concat, List.dropLast_concat]

theorem set_last_assistant_error_concat (pre : List ChatMessage) (a : AssistantMessage)
    (message : String) :
    set_last_assistant_error (pre ++ [.assistant a]) message
      = pre ++ [.assistant { a with error := some message }] := by
  simp [set_last_assistant_error, List.getLast?_concat, List.dropLast_concat]

theorem consume_chunks_concat (chunks : List String) :
    ∀ (pre : List ChatMessage) (a : AssistantMessage) (body : String) (n c : Nat),
    consume_chunks ⟨pre ++ [.assistant a], n, c⟩ body chunks
      = (⟨pre ++ [.assistant (chunkedMsg a body chunks)], n, c⟩, body ++ joinChunks chunks) := by
  induction chunks with
  | nil =>
    intro pre a body n c
    simp [consume_chunks, chunkedMsg, joinChunks, String.append_empty]
  | cons ch rest ih =>
    intro pre a body n c
    simp only [consume_chunks, set_last_assistant_body_concat]
    rw [ih pre _ (body ++ ch) n c]
    cases rest with
    | nil =>
      simp [chunkedMsg, joinChunks, String.append_empty, String.append_assoc]
    | cons r rs =>
      simp [chunkedMsg, joinChunks, String.append_assoc]

/-- C2: after consuming the first `k` stream chunks, the pending assistant
message's body is the concatenation of chunks `1..k` (the full accumulated
text so far), for every transcript whose pending assistant message starts
empty. -/
theorem C2_stream_accumulates_full_text (pre : List ChatMessage) (a : AssistantMessage)
    (n c : Nat) (chunks : List String) (k : Nat) (hbody : a.body = RichText.default) :
    lastAssistantBody ((consume_chunks ⟨pre ++ [.assistant a], n, c⟩ "" (chunks.take k)).1)
      = some (joinChunks (chunks.take k)) := by
  rw [consume_chunks_concat]
  cases htk : chunks.take k with
  | nil =>
    simp [lastAssistantBody, List.getLast?_concat, chunkedMsg, hbody, RichText.default,
      joinChunks]
  | cons x xs =>
    simp [lastAssistantBody, List.getLast?_concat, chunkedMsg, RichText.new, joinChunks,
      String.empty_append]

/-- C2 witness: chunks "Hel", "lo", " world" yield intermediate bodies
"Hel", "Hello", "Hello world". -/
theorem C2_stream_witness :
    lastAssistantBody ((consume_chunks ⟨[] ++ [.assistant ⟨1, RichText.default, none⟩], 2, 0⟩ ""
        (["Hel", "lo", " world"].take 1)).1) = some (joinChunks (["Hel", "lo", " world"].take 1))
    ∧ lastAssistantBody ((consume_chunks ⟨[] ++ [.assistant ⟨1, RichText.default, none⟩], 2, 0⟩ ""
        (["Hel", "lo", " world"].take 2)).1) = some (joinChunks (["Hel", "lo", " world"].take 2))
    ∧ lastAssistantBody ((consume_chunks ⟨[] ++ [.assistant ⟨1, RichText.default, none⟩], 2, 0⟩ ""
        (["Hel", "lo", " world"].take 3)).1) = some (joinChunks (["Hel", "lo", " world"].take 3))
    ∧ joinChunks ["Hel"] = "Hel"
    ∧ joinChunks ["Hel", "lo"] = "Hello"
    ∧ joinChunks ["Hel", "lo", " world"] = "Hello world" :=
  ⟨C2_stream_accumulates_full_text [] ⟨1, RichText.default, none⟩ 2 0 ["Hel", "lo", " world"] 1 rfl,
    C2_stream_accumulates_full_text [] ⟨1, RichText.default, none⟩ 2 0 ["Hel", "lo", " world"] 2 rfl,
    C2_stream_accumulates_full_text [] ⟨1, RichText.default, none⟩ 2 0 ["Hel", "lo", " world"] 3 rfl,
    by decide, by decide, by decide⟩

/-- C3: if opening the stream fails, or a chunk read fails after `chunks` were
consumed, the pending assistant message keeps the text accumulated before the
failure, its error field goes from `none` to exactly the (non-empty) failure
message, and a fresh empty user message is appended with the next allocated
id. -/
theorem C3_failure_keeps_text_sets_error (pre : List ChatMessage) (a : AssistantMessage)
    (n c : Nat) (chunks : List String) (msg : String)
    (hbody : a.body = RichText.default) (herr : a.error = none) (hmsg : msg ≠ "") :
    ((⟨pre ++ [.assistant a], n, c⟩ : AssistantChat).run_completion
        (.run chunks (some msg))).messages
      = pre ++ [.assistant ⟨a.id, RichText.new (joinChunks chunks), some msg⟩,
          .user ⟨n, "", []⟩]
    ∧ ((⟨pre ++ [.assistant a], n, c⟩ : AssistantChat).run_completion
        (.run chunks (some msg))).next_message_id = n + 1
    ∧ ((⟨pre ++ [.assistant a], n, c⟩ : AssistantChat).run_completion
        (.openError msg)).messages
      = pre ++ [.assistant ⟨a.id, a.body, some msg⟩, .user ⟨n, "", []⟩] := by
  obtain ⟨aid, abody, aerr⟩ := a
  simp only [RichText.default] at hbody
  simp only at herr
  subst hbody
  subst herr
  refine ⟨?_, ?_, ?_⟩
  · simp only [AssistantChat.run_completion, consume_chunks_concat]
    cases chunks with
    | nil =>
      simp [set_last_assistant_error_concat, AssistantChat.push_new_user_message,
        chunkedMsg, joinChunks, RichText.new, MessageId.post_inc]
    | cons ch rest =>
      simp [set_last_assistant_error_concat, AssistantChat.push_new_user_message,
        chunkedMsg, joinChunks, RichText.new, MessageId.post_inc, String.empty_append]
  · simp [AssistantChat.run_completion, consume_chunks_concat,
      set_last_assistant_error_concat, AssistantChat.push_new_user_message, MessageId.post_inc]
  · simp [AssistantChat.run_completion, set_last_assistant_error_concat,
      AssistantChat.push_new_user_message, MessageId.post_inc]

/-- C3 witness: chunk "partial " followed by a failure leaves body
"partial ", error "stream failed", and a fresh user message with id 2. -/
theorem C3_failure_witness :
    ((⟨[] ++ [.assistant ⟨1, RichText.default, none⟩], 2, 0⟩ : AssistantChat).run_completion
        (.run ["partial "] (some "stream failed"))).messages
      = [] ++ [.assistant ⟨1, RichText.new (joinChunks ["partial "]), some "stream failed"⟩,
          .user ⟨2, "", []⟩]
    ∧ ((⟨[] ++ [.assistant ⟨1, RichText.default, none⟩], 2, 0⟩ : AssistantChat).run_completion
        (.run ["partial "] (some "stream failed"))).next_message_id = 2 + 1
    ∧ ((⟨[] ++ [.assistant ⟨1, RichText.default, none⟩], 2, 0⟩ : AssistantChat).run_completion
        (.openError "stream failed")).messages
      = [] ++ [.assistant ⟨1, (⟨1, RichText.default, none⟩ : AssistantMessage).body,
          some "stream failed"⟩, .user ⟨2, "", []⟩] :=
  C3_failure_keeps_text_sets_error [] ⟨1, RichText.default, none⟩ 2 0 ["partial "]
    "stream failed" rfl rfl (by decide)

/-! Tag/id bookkeeping lemmas for the alternation and allocator invariants. -/

theorem msgTags_append (l m : List ChatMessage) : msgTags (l ++ m) = msgTags l ++ msgTags m := by
  simp [msgTags]

theorem msgIds_append (l m : List ChatMessage) : msgIds (l ++ m) = msgIds l ++ msgIds m := by
  simp [msgIds]

theorem ctxIds_append (l m : List ChatMessage) : ctxIds (l ++ m) = ctxIds l ++ ctxIds m := by
  simp [ctxIds]

theorem ctxIds_take_subset (msgs : List ChatMessage) (k : Nat) :
    ∀ x ∈ ctxIds (msgs.take k), x ∈ ctxIds msgs := by
  intro x hx
  simp only [ctxIds, List.mem_flatten, List.mem_map] at hx ⊢
  obtain ⟨l, ⟨m, hm, rfl⟩, hxl⟩ := hx
  exact ⟨_, ⟨m, List.take_subset _ _ hm, rfl⟩, hxl⟩

theorem altTags_take (l : List Bool) : ∀ (b : Bool) (n : Nat),
    altTags b l = true → altTags b (l.take n) = true := by
  induction l with
  | nil => intro b n _; simp [altTags]
  | cons t rest ih =>
    intro b n h
    cases n with
    | zero => simp [altTags]
    | succ n =>
      simp only [List.take_succ_cons, altTags, Bool.and_eq_true] at h ⊢
      exact ⟨h.1, ih (!b) n h.2⟩

theorem altTags_get (l : List Bool) : ∀ (b : Bool), altTags b l = true →
    ∀ (i : Nat) (h : i < l.length), l.get ⟨i, h⟩ = if i % 2 = 0 then b else !b := by
  induction l with
  | nil => intro b _ i h; simp at h
  | cons t rest ih =>
    intro b hb i h
    simp only [altTags, Bool.and_eq_true, beq_iff_eq] at hb
    cases i with
    | zero => simpa using hb.1
    | succ i =>
      rw [List.get_cons_succ, ih (!b) hb.2 i (Nat.lt_of_succ_lt_succ h)]
      rcases Nat.mod_two_eq_zero_or_one i with hp | hp
      · have h2 : ¬ (i + 1) % 2 = 0 := by omega
        rw [if_pos hp, if_neg h2]
      · have h1 : ¬ i % 2 = 0 := by omega
        have h2 : (i + 1) % 2 = 0 := by omega
        rw [if_neg h1, if_pos h2]
        simp

theorem altShift_succ (b : Bool) (n : Nat) : altShift b (n + 1) = altShift (!b) n := by
  simp only [altShift]
  rcases Nat.mod_two_eq_zero_or_one n with hp | hp
  · have h1 : ¬ (n + 1) % 2 = 0 := by omega
    rw [if_neg h1, if_pos hp]
  · have h1 : (n + 1) % 2 = 0 := by omega
    have h2 : ¬ n % 2 = 0 := by omega
    rw [if_pos h1, if_neg h2]
    simp

theorem altTags_append_eq (l : List Bool) : ∀ (m : List Bool) (b : Bool),
    altTags b (l ++ m) = (altTags b l && altTags (altShift b l.length) m) := by
  induction l with
  | nil =>
    intro m b
    simp [altTags, altShift]
  | cons t rest ih =>
    intro m b
    simp only [List.cons_append, altTags, List.append_eq]
    rw [ih m (!b), List.length_cons, altShift_succ, Bool.and_assoc]

theorem focused_message_id_mem (msgs : List ChatMessage) (isF : Nat → Bool)
    (fid : Nat) (h : focused_message_id msgs isF = some fid) :
    ∃ u : UserMessage, ChatMessage.user u ∈ msgs ∧ u.id = fid := by
  induction msgs with
  | nil => simp [focused_message_id] at h
  | cons m rest ih =>
    cases m with
    | user u =>
      by_cases hf : isF u.id = true
      · simp only [focused_message_id, if_pos hf, Option.some.injEq] at h
        exact ⟨u, List.mem_cons_self _ _, h⟩
      · simp only [focused_message_id, if_neg hf] at h
        obtain ⟨u', hm, hid⟩ := ih h
        exact ⟨u', List.mem_cons_of_mem _ hm, hid⟩
    | assistant a =>
      simp only [focused_message_id] at h
      obtain ⟨u', hm, hid⟩ := ih h
      exact ⟨u', List.mem_cons_of_mem _ hm, hid⟩

theorem idxOfMessage_user (msgs : List ChatMessage) (u : UserMessage)
    (hpw : List.Pairwise (fun a b => a ≠ b) (msgIds msgs))
    (hmem : ChatMessage.user u ∈ msgs) :
    ∃ i, idxOfMessage msgs u.id = some i
      ∧ ∃ hlt : i < msgs.length, msgs.get ⟨i, hlt⟩ = ChatMessage.user u := by
  induction msgs with
  | nil => simp at hmem
  | cons m rest ih =>
    simp only [msgIds, List.map_cons, List.pairwise_cons] at hpw
    by_cases hm : m.msgId = u.id
    · have hmu : m = ChatMessage.user u := by
        rcases List.mem_cons.1 hmem with h | h
        · exact h.symm
        · exfalso
          have hin : u.id ∈ List.map ChatMessage.msgId rest :=
            List.mem_map.2 ⟨_, h, rfl⟩
          exact hpw.1 u.id hin (by rw [hm])
      exact ⟨0, by simp [idxOfMessage, hm], Nat.succ_pos _, by simpa using hmu⟩
    · have hmem' : ChatMessage.user u ∈ rest := by
        rcases List.mem_cons.1 hmem with h | h
        · exact absurd (by rw [← h]; rfl) hm
        · exact h
      obtain ⟨i, hidx, hlt, hget⟩ := ih (by simpa [msgIds] using hpw.2) hmem'
      exact ⟨i + 1, by simp [idxOfMessage, hm, hidx],
        Nat.succ_lt_succ hlt, by simpa using hget⟩

/-! The context-population rewrites preserve the transcript's shape. -/

theorem update_first_user_msgTags (mid : Nat) (f : UserMessage → UserMessage) :
    ∀ msgs : List ChatMessage, msgTags (update_first_user mid f msgs) = msgTags msgs := by
  intro msgs
  induction msgs with
  | nil => rfl
  | cons m rest ih =>
    cases m with
    | user u =>
      by_cases h : u.id = mid
      · simp [update_first_user, h, msgTags, ChatMessage.isUser]
      · simp only [update_first_user, if_neg h, msgTags, List.map_cons]
        rw [show List.map ChatMessage.isUser (update_first_user mid f rest) = msgTags (update_first_user mid f rest) from rfl, ih]
        rfl
    | assistant a =>
      simp only [update_first_user, msgTags, List.map_cons]
      rw [show List.map ChatMessage.isUser (update_first_user mid f rest) = msgTags (update_first_user mid f rest) from rfl, ih]
      rfl

theorem update_first_user_msgIds (mid : Nat) (f : UserMessage → UserMessage)
    (hf : ∀ u, (f u).id = u.id) :
    ∀ msgs : List ChatMessage, msgIds (update_first_user mid f msgs) = msgIds msgs := by
  intro msgs
  induction msgs with
  | nil => rfl
  | cons m rest ih =>
    cases m with
    | user u =>
      by_cases h : u.id = mid
      · simp [update_first_user, h, msgIds, ChatMessage.msgId, hf u]
      · simp only [update_first_user, if_neg h, msgIds, List.map_cons]
        rw [show List.map ChatMessage.msgId (update_first_user mid f rest) = msgIds (update_first_user mid f rest) from rfl, ih]
        rfl
    | assistant a =>
      simp only [update_first_user, msgIds, List.map_cons]
      rw [show List.map ChatMessage.msgId (update_first_user mid f rest) = msgIds (update_first_user mid f rest) from rfl, ih]
      rfl

theorem update_first_user_concat (mid : Nat) (f : UserMessage → UserMessage) :
    ∀ (l : List ChatMessage) (a : AssistantMessage),
    update_first_user mid f (l ++ [.assistant a]) = update_first_user mid f l ++ [.assistant a] := by
  intro l a
  induction l with
  | nil => rfl
  | cons m rest ih =>
    cases m with
    | user u =>
      by_cases h : u.id = mid
      · simp [update_first_user, h]
      · simp [update_first_user, h, ih]
    | assistant b => simp [update_first_user, ih]

theorem ctxIds_update_first_user (mid : Nat) (f : UserMessage → UserMessage) (cid : Nat)
    (hf : ∀ u, ∀ x ∈ ctxIdsOf (f u).contexts, x ∈ ctxIdsOf u.contexts ∨ x = cid) :
    ∀ msgs : List ChatMessage, ∀ x ∈ ctxIds (update_first_user mid f msgs),
      x ∈ ctxIds msgs ∨ x = cid := by
  intro msgs
  induction msgs with
  | nil => intro x hx; simp [update_first_user, ctxIds] at hx
  | cons m rest ih =>
    intro x hx
    cases m with
    | user u =>
      by_cases h : u.id = mid
      · simp only [update_first_user, if_pos h, ctxIds, List.map_cons, List.flatten_cons,
          List.mem_append] at hx ⊢
        rcases hx with hx | hx
        · rcases hf u x hx with hx' | hx'
          · exact Or.inl (Or.inl hx')
          · exact Or.inr hx'
        · exact Or.inl (Or.inr hx)
      · simp only [update_first_user, if_neg h, ctxIds, List.map_cons, List.flatten_cons,
          List.mem_append] at hx ⊢
        rcases hx with hx | hx
        · exact Or.inl (Or.inl hx)
        · rcases ih x (by simpa [ctxIds] using hx) with hx' | hx'
          · exact Or.inl (Or.inr (by simpa [ctxIds] using hx'))
          · exact Or.inr hx'
    | assistant a =>
      simp only [update_first_user, ctxIds, List.map_cons, List.flatten_cons,
        List.mem_append] at hx ⊢
      rcases hx with hx | hx
      · simp at hx
      · rcases ih x (by simpa [ctxIds] using hx) with hx' | hx'
        · exact Or.inl (Or.inr (by simpa [ctxIds] using hx'))
        · exact Or.inr hx'

theorem ctxIdsOf_populate_first (cid : Nat) (excerpts : List CodebaseExcerpt) :
    ∀ ctxs : List AssistantContext,
      ctxIdsOf (populate_first_codebase cid excerpts ctxs) = ctxIdsOf ctxs := by
  intro ctxs
  induction ctxs with
  | nil => rfl
  | cons c rest ih =>
    cases c with
    | codebase cc =>
      by_cases h : cc.id = cid
      · simp [populate_first_codebase, h, ctxIdsOf, CodebaseContext.populate]
      · simp only [populate_first_codebase, if_neg h, ctxIdsOf, List.map_cons]
        rw [show List.map _ (populate_first_codebase cid excerpts rest) = ctxIdsOf (populate_first_codebase cid excerpts rest) from rfl, ih]
        rfl

theorem ctxIdsOf_append_new (ctxs : List AssistantContext) (cid : Nat) :
    ctxIdsOf (ctxs ++ [AssistantContext.newCodebase cid]) = ctxIdsOf ctxs ++ [cid] := by
  simp [ctxIdsOf, AssistantContext.newCodebase]

theorem chunkedMsg_id (a : AssistantMessage) (body : String) :
    ∀ chunks : List String, (chunkedMsg a body chunks).id = a.id := by
  intro chunks
  cases chunks with
  | nil => rfl
  | cons c cs => rfl

/-! Counter bookkeeping. -/

theorem truncate_messages_counters (st : AssistantChat) (mid : Nat) :
    (st.truncate_messages mid).next_message_id = st.next_message_id
    ∧ (st.truncate_messages mid).next_context_id = st.next_context_id := by
  cases h : idxOfMessage st.messages mid <;>
    simp [AssistantChat.truncate_messages, h]

theorem consume_chunks_counters (cs : List String) : ∀ (st : AssistantChat) (b : String),
    (consume_chunks st b cs).1.next_message_id = st.next_message_id
    ∧ (consume_chunks st b cs).1.next_context_id = st.next_context_id := by
  induction cs with
  | nil => intro st b; exact ⟨rfl, rfl⟩
  | cons c rest ih =>
    intro st b
    simpa [consume_chunks] using ih { st with messages := set_last_assistant_body st.messages (b ++ c) } (b ++ c)

theorem run_completion_counters (st : AssistantChat) (stream : StreamOutcome) :
    (st.run_completion stream).next_message_id = st.next_message_id + 1
    ∧ (st.run_completion stream).next_context_id = st.next_context_id := by
  cases stream with
  | openError message =>
    simp [AssistantChat.run_completion, AssistantChat.push_new_user_message, MessageId.post_inc]
  | run chunks failure =>
    obtain ⟨h1, h2⟩ := consume_chunks_counters chunks st ""
    cases failure with
    | none =>
      simp [AssistantChat.run_completion, AssistantChat.push_new_user_message,
        MessageId.post_inc, h1, h2]
    | some message =>
      simp [AssistantChat.run_completion, AssistantChat.push_new_user_message,
        MessageId.post_inc, h1, h2]

theorem populate_context_counters (st : AssistantChat) (sid : Nat) (mode : SubmitMode)
    (search : String → Nat → List SearchResult) (load : String → Except String String) :
    (st.populate_context_on_submit sid mode search load).next_message_id = st.next_message_id
    ∧ st.next_context_id ≤ (st.populate_context_on_submit sid mode search load).next_context_id := by
  cases mode with
  | Simple => exact ⟨rfl, Nat.le_refl _⟩
  | CurrentFile => exact ⟨rfl, Nat.le_refl _⟩
  | Codebase =>
    exact ⟨rfl, Nat.le_succ _⟩

theorem submit_counters_mono (st : AssistantChat) (isFocused : Nat → Bool)
    (mode : SubmitMode) (search : String → Nat → List SearchResult)
    (load : String → Except String String) (stream : StreamOutcome) :
    st.next_message_id ≤ (st.submit isFocused mode search load stream).next_message_id
    ∧ st.next_context_id ≤ (st.submit isFocused mode search load stream).next_context_id := by
  cases hfoc : focused_message_id st.messages isFocused with
  | none =>
    simp only [AssistantChat.submit, hfoc]
    exact ⟨Nat.le_refl _, Nat.le_refl _⟩
  | some fid =>
    simp only [AssistantChat.submit, hfoc]
    obtain ⟨ht1, ht2⟩ := truncate_messages_counters st fid
    obtain ⟨hp1, hp2⟩ := populate_context_counters
      ((st.truncate_messages fid).push_new_assistant_message) fid mode search load
    obtain ⟨hr1, hr2⟩ := run_completion_counters
      (((st.truncate_messages fid).push_new_assistant_message).populate_context_on_submit
        fid mode search load) stream
    constructor
    · rw [hr1, hp1]
      have hpush : ((st.truncate_messages fid).push_new_assistant_message).next_message_id
          = st.next_message_id + 1 := by
        simp [AssistantChat.push_new_assistant_message, MessageId.post_inc, ht1]
      rw [hpush]
      exact Nat.le_add_right _ 2
    · rw [hr2]
      have hpush : ((st.truncate_messages fid).push_new_assistant_message).next_context_id
          = st.next_context_id := by
        simp [AssistantChat.push_new_assistant_message, ht2]
      calc st.next_context_id = _ := hpush.symm
        _ ≤ _ := hp2

/-! Shape of the pipeline stages: each keeps the truncated prefix's tags and
ids and appends only the pending assistant / fresh user messages. -/

theorem populate_context_shape (st : AssistantChat) (sid : Nat) (mode : SubmitMode)
    (search : String → Nat → List SearchResult) (load : String → Except String String)
    (pre : List ChatMessage) (a : AssistantMessage)
    (hmsgs : st.messages = pre ++ [.assistant a]) :
    ∃ T3 : List ChatMessage,
      (st.populate_context_on_submit sid mode search load).messages = T3 ++ [.assistant a]
      ∧ msgTags T3 = msgTags pre
      ∧ msgIds T3 = msgIds pre
      ∧ ((∀ x ∈ ctxIds pre, x < st.next_context_id) →
          ∀ x ∈ ctxIds T3,
            x < (st.populate_context_on_submit sid mode search load).next_context_id) := by
  cases mode with
  | Simple =>
    exact ⟨pre, by simpa [AssistantChat.populate_context_on_submit] using hmsgs,
      rfl, rfl, fun hb x hx => hb x hx⟩
  | CurrentFile =>
    exact ⟨pre, by simpa [AssistantChat.populate_context_on_submit] using hmsgs,
      rfl, rfl, fun hb x hx => hb x hx⟩
  | Codebase =>
    simp only [AssistantChat.populate_context_on_submit, ContextId.post_inc, hmsgs,
      update_first_user_concat]
    refine ⟨_, rfl, ?_, ?_, ?_⟩
    · rw [update_first_user_msgTags, update_first_user_msgTags]
    · refine Eq.trans (update_first_user_msgIds _ _ ?_ _) (update_first_user_msgIds _ _ ?_ _) <;>
        exact fun u => rfl
    · intro hb x hx
      have h2 := ctxIds_update_first_user sid _ st.next_context_id
        (fun u y hy => by
          rw [ctxIdsOf_populate_first] at hy
          exact Or.inl hy) _ x hx
      have h1 : x ∈ ctxIds pre ∨ x = st.next_context_id := by
        rcases h2 with h2 | h2
        · exact ctxIds_update_first_user sid _ st.next_context_id
            (fun u y hy => by
              rw [ctxIdsOf_append_new] at hy
              rcases List.mem_append.1 hy with h | h
              · exact Or.inl h
              · simp at h
                exact Or.inr h) _ x h2
        · exact Or.inr h2
      rcases h1 with h1 | h1
      · exact Nat.lt_succ_of_lt (hb x h1)
      · rw [h1]
        exact Nat.lt_succ_self _

theorem run_completion_shape (st : AssistantChat) (stream : StreamOutcome)
    (pre : List ChatMessage) (a : AssistantMessage)
    (hmsgs : st.messages = pre ++ [.assistant a]) :
    ∃ a' : AssistantMessage, a'.id = a.id
      ∧ (st.run_completion stream).messages
        = pre ++ [.assistant a', .user ⟨st.next_message_id, "", []⟩] := by
  obtain ⟨msgs, n, c⟩ := st
  simp only at hmsgs
  subst hmsgs
  cases stream with
  | openError msg =>
    refine ⟨{ a with error := some msg }, rfl, ?_⟩
    simp [AssistantChat.run_completion, set_last_assistant_error_concat,
      AssistantChat.push_new_user_message, MessageId.post_inc]
  | run chunks failure =>
    cases failure with
    | none =>
      refine ⟨chunkedMsg a "" chunks, chunkedMsg_id a "" chunks, ?_⟩
      simp [AssistantChat.run_completion, consume_chunks_concat,
        AssistantChat.push_new_user_message, MessageId.post_inc]
    | some msg =>
      refine ⟨{ chunkedMsg a "" chunks with error := some msg },
        by rw [show ({ chunkedMsg a "" chunks with error := some msg } : AssistantMessage).id
            = (chunkedMsg a "" chunks).id from rfl, chunkedMsg_id], ?_⟩
      simp [AssistantChat.run_completion, consume_chunks_concat,
        set_last_assistant_error_concat, AssistantChat.push_new_user_message,
        MessageId.post_inc]

/-- A settled submit cycle preserves the session invariant. -/
theorem sessionInv_submit (st : AssistantChat) (isFocused : Nat → Bool)
    (mode : SubmitMode) (search : String → Nat → List SearchResult)
    (load : String → Except String String) (stream : StreamOutcome)
    (hinv : SessionInv st) : SessionInv (st.submit isFocused mode search load stream) := by
  obtain ⟨hodd, halt, hpw, hmb, hcb⟩ := hinv
  cases hfoc : focused_message_id st.messages isFocused with
  | none =>
    simp only [AssistantChat.submit, hfoc]
    exact ⟨hodd, halt, hpw, hmb, hcb⟩
  | some fid =>
    obtain ⟨u, humem, huid⟩ := focused_message_id_mem st.messages isFocused fid hfoc
    have hne : List.Pairwise (fun x y => x ≠ y) (msgIds st.messages) :=
      hpw.imp (fun h => Nat.ne_of_lt h)
    obtain ⟨i, hidx, hlt, hget⟩ := idxOfMessage_user st.messages u hne humem
    rw [huid] at hidx
    have htr : (st.truncate_messages fid).messages = st.messages.take (i + 1) := by
      simp [AssistantChat.truncate_messages, hidx]
    have hTlen : (st.messages.take (i + 1)).length = i + 1 := by
      rw [List.length_take]
      omega
    have hTtags : msgTags (st.messages.take (i + 1)) = (msgTags st.messages).take (i + 1) := by
      simp [msgTags, List.map_take]
    have hTids : msgIds (st.messages.take (i + 1)) = (msgIds st.messages).take (i + 1) := by
      simp [msgIds, List.map_take]
    have haltT : altTags true (msgTags (st.messages.take (i + 1))) = true := by
      rw [hTtags]
      exact altTags_take _ _ _ halt
    have hpwT : List.Pairwise (· < ·) (msgIds (st.messages.take (i + 1))) := by
      rw [hTids]
      exact List.Pairwise.sublist (List.take_sublist _ _) hpw
    have hmbT : ∀ x ∈ msgIds (st.messages.take (i + 1)), x < st.next_message_id := by
      intro x hx
      rw [hTids] at hx
      exact hmb x (List.take_subset _ _ hx)
    have hcbT : ∀ x ∈ ctxIds (st.messages.take (i + 1)), x < st.next_context_id :=
      fun x hx => hcb x (ctxIds_take_subset st.messages (i + 1) x hx)
    have hieven : i % 2 = 0 := by
      have hmlt : i < (msgTags st.messages).length := by
        simpa [msgTags] using hlt
      have h2 := altTags_get (msgTags st.messages) true halt i hmlt
      rw [List.get_eq_getElem] at h2
      simp only [msgTags, List.getElem_map] at h2
      have hgete : st.messages[i] = ChatMessage.user u := by
        rw [← List.get_eq_getElem st.messages ⟨i, hlt⟩]
        exact hget
      rw [hgete] at h2
      by_contra hne2
      rw [if_neg hne2] at h2
      simp [ChatMessage.isUser] at h2
    have hmsg2 : ((st.truncate_messages fid).push_new_assistant_message).messages
        = st.messages.take (i + 1)
          ++ [ChatMessage.assistant ⟨st.next_message_id, RichText.default, none⟩] := by
      simp [AssistantChat.push_new_assistant_message, MessageId.post_inc, htr,
        (truncate_messages_counters st fid).1]
    have h2msgcnt : ((st.truncate_messages fid).push_new_assistant_message).next_message_id
        = st.next_message_id + 1 := by
      simp [AssistantChat.push_new_assistant_message, MessageId.post_inc,
        (truncate_messages_counters st fid).1]
    have h2ctxcnt : ((st.truncate_messages fid).push_new_assistant_message).next_context_id
        = st.next_context_id := by
      simp [AssistantChat.push_new_assistant_message,
        (truncate_messages_counters st fid).2]
    obtain ⟨T3, hT3msgs, hT3tags, hT3ids, hT3ctx⟩ :=
      populate_context_shape ((st.truncate_messages fid).push_new_assistant_message)
        fid mode search load (st.messages.take (i + 1))
        ⟨st.next_message_id, RichText.default, none⟩ hmsg2
    obtain ⟨hp1, hp2⟩ := populate_context_counters
      ((st.truncate_messages fid).push_new_assistant_message) fid mode search load
    obtain ⟨a', ha'id0, hfin⟩ :=
      run_completion_shape
        (((st.truncate_messages fid).push_new_assistant_message).populate_context_on_submit
          fid mode search load) stream T3 ⟨st.next_message_id, RichText.default, none⟩ hT3msgs
    have ha'id : a'.id = st.next_message_id := ha'id0
    obtain ⟨hr1, hr2⟩ := run_completion_counters
      (((st.truncate_messages fid).push_new_assistant_message).populate_context_on_submit
        fid mode search load) stream
    rw [hp1, h2msgcnt] at hfin
    rw [hp1, h2msgcnt] at hr1
    have hctxfin : ∀ x ∈ ctxIds T3,
        x < (((st.truncate_messages fid).push_new_assistant_message).populate_context_on_submit
          fid mode search load).next_context_id := by
      apply hT3ctx
      rw [h2ctxcnt]
      exact hcbT
    have hT3len : T3.length = i + 1 := by
      have h1 := congrArg List.length hT3tags
      simp only [msgTags, List.length_map] at h1
      exact h1.trans hTlen
    simp only [AssistantChat.submit, hfoc]
    refine ⟨?_, ?_, ?_, ?_, ?_⟩
    · rw [hfin]
      simp only [List.length_append, List.length_cons, List.length_nil, hT3len]
      omega
    · rw [hfin, msgTags_append, altTags_append_eq, hT3tags]
      have hlen2 : (msgTags (st.messages.take (i + 1))).length = i + 1 := by
        simp only [msgTags, List.length_map]
        exact hTlen
      rw [hlen2, haltT]
      have hshift : altShift true (i + 1) = false := by
        simp only [altShift]
        rw [if_neg (by omega)]
        rfl
      rw [hshift]
      simp [msgTags, ChatMessage.isUser, altTags]
    · rw [hfin, msgIds_append, hT3ids, List.pairwise_append]
      refine ⟨hpwT, ?_, ?_⟩
      · simp only [msgIds, List.map_cons, List.map_nil, ChatMessage.msgId]
        rw [ha'id]
        simp [List.pairwise_cons]
      · intro x hx y hy
        simp only [msgIds, List.map_cons, List.map_nil, ChatMessage.msgId,
          List.mem_cons, List.not_mem_nil, or_false] at hy
        have hxlt := hmbT x hx
        rcases hy with rfl | rfl
        · rw [ha'id]
          exact hxlt
        · omega
    · intro x hx
      rw [hr1]
      rw [hfin, msgIds_append, hT3ids] at hx
      rcases List.mem_append.1 hx with hx | hx
      · have := hmbT x hx
        omega
      · simp only [msgIds, List.map_cons, List.map_nil, ChatMessage.msgId,
          List.mem_cons, List.not_mem_nil, or_false] at hx
        rcases hx with rfl | rfl
        · rw [ha'id]
          omega
        · omega
    · intro x hx
      rw [hr2]
      rw [hfin, ctxIds_append] at hx
      rcases List.mem_append.1 hx with hx | hx
      · exact hctxfin x hx
      · simp [ctxIds, ctxIdsOf] at hx

/-- Every state reachable by settled submit cycles satisfies the session
invariant. -/
theorem sessionInv_reachable (st : AssistantChat) (h : Reachable st) : SessionInv st := by
  induction h with
  | init => exact ⟨by decide, by decide, by decide, by decide, by decide⟩
  | step st isFocused mode search load stream hr ih =>
    exact sessionInv_submit st isFocused mode search load stream ih

/-- C1: in every state reachable by settled submit cycles, the transcript ends
with exactly one user turn (the last turn is a user turn and a second-to-last
turn, when present, is an assistant turn), and every assistant turn is
immediately preceded by a user turn. -/
theorem C1_transcript_alternation (st : AssistantChat) (h : Reachable st) :
    (∃ u : UserMessage, st.messages.getLast? = some (.user u))
    ∧ (2 ≤ st.messages.length →
        ∃ hlt : st.messages.length - 2 < st.messages.length,
          (st.messages.get ⟨st.messages.length - 2, hlt⟩).isUser = false)
    ∧ (∀ (i : Nat) (hlt : i < st.messages.length),
        (st.messages.get ⟨i, hlt⟩).isUser = false →
          0 < i ∧ ∃ hp : i - 1 < st.messages.length,
            (st.messages.get ⟨i - 1, hp⟩).isUser = true) := by
  obtain ⟨hodd, halt, _, _, _⟩ := sessionInv_reachable st h
  have htag : ∀ (i : Nat) (hlt : i < st.messages.length),
      (st.messages.get ⟨i, hlt⟩).isUser = (if i % 2 = 0 then true else false) := by
    intro i hlt
    have hmlt : i < (msgTags st.messages).length := by
      simpa [msgTags] using hlt
    have h2 := altTags_get (msgTags st.messages) true halt i hmlt
    rw [List.get_eq_getElem] at h2
    simp only [msgTags, List.getElem_map] at h2
    rw [List.get_eq_getElem]
    simpa using h2
  have hpos : 0 < st.messages.length := by omega
  refine ⟨?_, ?_, ?_⟩
  · have hlt1 : st.messages.length - 1 < st.messages.length := by omega
    have hlast := htag (st.messages.length - 1) hlt1
    rw [if_pos (by omega)] at hlast
    have hglast : st.messages.getLast? = some (st.messages.get ⟨st.messages.length - 1, hlt1⟩) := by
      rw [List.getLast?_eq_getElem?, List.getElem?_eq_getElem hlt1]
      rfl
    cases hu : st.messages.get ⟨st.messages.length - 1, hlt1⟩ with
    | user u =>
      exact ⟨u, by rw [hglast, hu]⟩
    | assistant a =>
      rw [hu] at hlast
      simp [ChatMessage.isUser] at hlast
  · intro hlen2
    have hlt2 : st.messages.length - 2 < st.messages.length := by omega
    refine ⟨hlt2, ?_⟩
    have h2 := htag (st.messages.length - 2) hlt2
    rw [if_neg (by omega)] at h2
    exact h2
  · intro i hlt hA
    have h2 := htag i hlt
    rw [hA] at h2
    have hiodd : i % 2 = 1 := by
      by_contra hcon
      rw [if_pos (by omega)] at h2
      exact Bool.false_ne_true h2
    have hipos : 0 < i := by omega
    have hp : i - 1 < st.messages.length := by omega
    refine ⟨hipos, hp, ?_⟩
    have h3 := htag (i - 1) hp
    rw [if_pos (by omega)] at h3
    exact h3

/-- C1 witness: the fresh session is reachable and its transcript ends with a
user turn. -/
theorem C1_transcript_witness :
    ∃ u : UserMessage, AssistantChat.new.messages.getLast? = some (.user u) :=
  (C1_transcript_alternation AssistantChat.new Reachable.init).1

/-- C6: the two allocators return the current counter and bump it by one,
both counters start at 0 for a fresh session, truncation never touches them,
a settled submit cycle never decreases them, and in every reachable state the
transcript's message ids are strictly increasing with every allocated id
below its counter (so no id is ever handed out twice). -/
theorem C6_allocators_monotone_unique :
    (∀ n : Nat, MessageId.post_inc n = (n, n + 1))
    ∧ (∀ n : Nat, ContextId.post_inc n = (n, n + 1))
    ∧ AssistantChat.mkEmpty.next_message_id = 0
    ∧ AssistantChat.mkEmpty.next_context_id = 0
    ∧ (∀ (st : AssistantChat) (mid : Nat),
        (st.truncate_messages mid).next_message_id = st.next_message_id
        ∧ (st.truncate_messages mid).next_context_id = st.next_context_id)
    ∧ (∀ (st : AssistantChat) (isFocused : Nat → Bool) (mode : SubmitMode)
        (search : String → Nat → List SearchResult) (load : String → Except String String)
        (stream : StreamOutcome),
        st.next_message_id ≤ (st.submit isFocused mode search load stream).next_message_id
        ∧ st.next_context_id ≤ (st.submit isFocused mode search load stream).next_context_id)
    ∧ (∀ st : AssistantChat, Reachable st →
        List.Pairwise (· < ·) (msgIds st.messages)
        ∧ (∀ x ∈ msgIds st.messages, x < st.next_message_id)
        ∧ (∀ x ∈ ctxIds st.messages, x < st.next_context_id)) :=
  ⟨fun _ => rfl, fun _ => rfl, rfl, rfl,
    truncate_messages_counters,
    submit_counters_mono,
    fun st h => (sessionInv_reachable st h).2.2⟩

/-- C6 witness: the allocator contract at 0 and the id facts at the fresh
reachable session. -/
theorem C6_allocators_witness :
    MessageId.post_inc 0 = (0, 1)
    ∧ (List.Pairwise (· < ·) (msgIds AssistantChat.new.messages)
        ∧ (∀ x ∈ msgIds AssistantChat.new.messages, x < AssistantChat.new.next_message_id)
        ∧ (∀ x ∈ ctxIds AssistantChat.new.messages, x < AssistantChat.new.next_context_id)) :=
  ⟨C6_allocators_monotone_unique.1 0,
    C6_allocators_monotone_unique.2.2.2.2.2.2 AssistantChat.new Reachable.init⟩
